import Mathlib

/-!
Shallow embedding of the DetectFlow checkpointed orchestration engine
(`detectflow/process/orchestrator.py`) and the resilient database writer
(`detectflow/manipulators/database_manipulator.py`), together with proofs
about the properties the specification states for them.

Modelling conventions:
* Python `dict`s (which preserve insertion order, forbid duplicate keys, and
  update an existing key in place) are modelled as association lists with the
  order-preserving update `dictSet`.
* Python exceptions are modelled by explicit outcome types; file-system and
  SQLite failures are modelled by boolean oracles (`ok : String → Bool`,
  `failsAt : Nat → Bool`) that say which write attempt succeeds.
* Integers are Python integers, i.e. unbounded `Int`.
-/

namespace DetectFlow

/-- Ordered association list standing for a Python `dict` from file path to
integer status. -/
abbrev StrIntMap := List (String × Int)

/-- Python `d[k] = v`: updates the value in place when the key is present
(keeping its position) and appends the pair otherwise. -/
def dictSet (m : StrIntMap) (k : String) (v : Int) : StrIntMap :=
  match m with
  | [] => [(k, v)]
  | p :: ps => if p.1 = k then (k, v) :: ps else p :: dictSet ps k v

/-- Python `d.get(k)` / `d[k]` lookup: first entry with the key. -/
def dictGet? (m : StrIntMap) (k : String) : Option Int :=
  (m.find? (fun p => p.1 = k)).map (fun p => p.2)

/-- Python `k in d`. -/
def dictMem (m : StrIntMap) (k : String) : Bool :=
  m.any (fun p => p.1 = k)

/-! ## Resilient Writer (`detectflow/manipulators/database_manipulator.py`) -/

namespace DatabaseManipulator

/-- One row of SQL parameters (a Python tuple of values).  The cell type is
irrelevant to the control flow of `safe_execute`, so cells are integers. -/
abbrev Row := List Int

/-- The `data` argument of `safe_execute`: a single tuple (executed with
`cur.execute`) or a list of tuples (executed with `cur.executemany`). -/
inductive SqlData
  | single (r : Row)
  | many (rs : List Row)
deriving DecidableEq, Repr

/-- Python truthiness of the data argument (`if data:` / `if data and ...`):
an empty tuple or an empty list is falsy. -/
def SqlData.truthy : SqlData → Bool
  | single r => !r.isEmpty
  | many rs => !rs.isEmpty

/-- The arguments of the `dump_to_csv` calls performed on the final failed
attempt: a list of tuples is dumped tuple by tuple (one call per tuple), a
single tuple in one call.  Each call opens a fresh file named
`emergency_dump_<db>_<numeric hash>.csv`, so each returned element is one
overflow artifact holding exactly that row. -/
def SqlData.dumpRows : SqlData → List Row
  | single r => [r]
  | many rs => rs

/-- The retry loop of `safe_execute`: `attempt` counts from 0 and `remaining`
is how many attempts are left (`remaining = retries - attempt`).  The oracle
`failsAt i` says whether the SQL execution of attempt `i` raises
`sqlite3.Error`.  Result: the rows passed to `dump_to_csv`, in order, and
whether the call raises `RuntimeError`.  A successful attempt breaks the
loop; on the final failed attempt (`attempt == retries - 1`) the code dumps
when `data` is truthy and dumps are enabled, then raises unless
`sustain_emergency_dumps` is set, and raises directly otherwise. -/
def safeExecuteLoop (failsAt : Nat → Bool) (data : Option SqlData)
    (enableDumps sustainDumps : Bool) : Nat → Nat → List Row × Bool
  | _, 0 => ([], false)
  | attempt, remaining + 1 =>
    if failsAt attempt then
      if remaining = 0 then
        match data with
        | some d =>
          if d.truthy && enableDumps then (d.dumpRows, !sustainDumps)
          else ([], true)
        | none => ([], true)
      else
        safeExecuteLoop failsAt data enableDumps sustainDumps (attempt + 1) remaining
    else
      ([], false)

/-- `DatabaseManipulator.safe_execute` under an attempt-failure oracle.
The transaction rollback, the fixed 1-second backoff, and the `finally`
connection close do not affect the dump list or the raise decision, so the
result is just those two components. -/
def safeExecute (failsAt : Nat → Bool) (data : Option SqlData)
    (retries : Nat) (enableDumps sustainDumps : Bool) : List Row × Bool :=
  safeExecuteLoop failsAt data enableDumps sustainDumps 0 retries

/-- Mutable batching state of one `DatabaseManipulator` instance: the buffer
of pending rows, the table they are destined for, and the flush threshold.
A batch row is a Python dict from column name to value. -/
abbrev BatchRow := List (String × Int)

structure WriterState where
  batch_data : List BatchRow
  batch_table : Option String
  batch_size : Nat
deriving DecidableEq, Repr

/-- One flush: a single batched `INSERT INTO <table> ...` (`executemany`)
carrying the rows the buffer held at flush time. -/
structure FlushEvent where
  table : Option String
  rows : List BatchRow
deriving DecidableEq, Repr

/-- `flush_batch`: a no-op on an empty buffer; otherwise it issues one
batched INSERT into `batch_table` via `safe_execute` with
`sustain_emergency_dumps=True` (which returns normally even when every
retry fails) and clears the buffer.  `batch_table` is left unchanged. -/
def flush_batch (st : WriterState) : WriterState × List FlushEvent :=
  if st.batch_data.isEmpty then (st, [])
  else ({ st with batch_data := [] }, [⟨st.batch_table, st.batch_data⟩])

/-- `add_to_batch`: flushes the existing buffer first when the buffered table
changes, records `table` as the current batch table, appends the row, and
flushes when the buffer has reached `batch_size`.  Returns the new state and
the flush events of this call, in order. -/
def add_to_batch (st : WriterState) (table : String) (row : BatchRow) :
    WriterState × List FlushEvent :=
  let fl :=
    if st.batch_table ≠ none ∧ st.batch_table ≠ some table then flush_batch st
    else (st, [])
  let st2 : WriterState :=
    { fl.1 with batch_table := some table, batch_data := fl.1.batch_data ++ [row] }
  if st2.batch_data.length ≥ st2.batch_size then
    let fl2 := flush_batch st2
    (fl2.1, fl.2 ++ fl2.2)
  else (st2, fl.2)

/-- Run a sequence of `add_to_batch` calls, accumulating flush events. -/
def runBatchCalls (st : WriterState) : List (String × BatchRow) →
    WriterState × List FlushEvent
  | [] => (st, [])
  | c :: cs =>
    let fl := add_to_batch st c.1 c.2
    let rest := runBatchCalls fl.1 cs
    (rest.1, fl.2 ++ rest.2)

/-- The buffer rows are all tagged with the current `batch_table`. -/
def bufferTagged (tag : BatchRow → String) (st : WriterState) : Prop :=
  ∀ r ∈ st.batch_data, some (tag r) = st.batch_table

/-- All rows of one flush event are tagged with the event's table. -/
def eventTagged (tag : BatchRow → String) (e : FlushEvent) : Prop :=
  ∀ r ∈ e.rows, some (tag r) = e.table

end DatabaseManipulator

/-! ## Checkpointed orchestration engine (`detectflow/process/orchestrator.py`) -/

namespace Orchestrator

/-- One entry of the checkpoint's `tasks` list: a source directory plus the
status dict mapping each matched video file to `0` (not started), a positive
last-processed-frame index, or `-1` (complete). -/
structure TaskRecord where
  directory : String
  status : StrIntMap
deriving DecidableEq, Repr

/-- The checkpoint document held in `self.checkpoint_data`. -/
structure CheckpointState where
  task_name : String
  input_type_flags : Bool × Bool × Bool × Bool
  batch_size : Int
  max_workers : Int
  tasks : List TaskRecord
  progress : StrIntMap
deriving DecidableEq, Repr

/-- A `Task` work unit handed to a worker: the parent directory, the batch's
video files, and their statuses. -/
structure Task where
  directory : String
  video_files : List String
  status : StrIntMap
deriving DecidableEq, Repr

/-- In-place mutation of the record found by
`next((t for t in tasks if t['directory'] == directory), None)`:
the first record with the given directory is replaced by `g` of itself. -/
def updateFirstTask (tasks : List TaskRecord) (directory : String)
    (g : TaskRecord → TaskRecord) : List TaskRecord :=
  match tasks with
  | [] => []
  | t :: ts =>
    if t.directory = directory then g t :: ts
    else t :: updateFirstTask ts directory g

/-- The completion sweep at the end of `_update_task_progress`: when every
status in the record equals `-1`, the loop rewrites every status to `-1`
(a value-level no-op). -/
def completionSweep (t : TaskRecord) : TaskRecord :=
  if t.status.all (fun p => p.2 = -1) then
    { t with status := t.status.map (fun p => (p.1, -1)) }
  else t

/-- `Orchestrator._update_task_progress`: locate the first record with the
given directory; if it is absent or does not contain the file, the raised
`ValueError` is caught by the method's own handler and logged, leaving the
state unchanged; otherwise the file's status is set to
`last_processed_frame` in both the record's status dict and the flat
`progress` dict, followed by the completion sweep.  (The trailing
`_write_checkpoint` call does not change the in-memory state.) -/
def update_task_progress (s : CheckpointState) (directory file : String)
    (last_processed_frame : Int) : CheckpointState :=
  match s.tasks.find? (fun t => t.directory = directory) with
  | none => s
  | some t =>
    if dictMem t.status file then
      { s with
        tasks := updateFirstTask s.tasks directory (fun t0 =>
          completionSweep
            { t0 with status := dictSet t0.status file last_processed_frame }),
        progress := dictSet s.progress file last_processed_frame }
    else s

/-- `Orchestrator._queue_batch`: puts the task on the queue and marks every
file of the batch as `0` (queued) in the flat `progress` dict only; the
TaskRecord status dicts are not touched. -/
def queue_batch (s : CheckpointState) (task : Task) : CheckpointState :=
  { s with
    progress := task.video_files.foldl (fun p f => dictSet p f 0) s.progress }

/-- A TaskRecord is done iff every status equals `-1`
(`all(value == -1 for value in status.values())`; vacuously true when the
status dict is empty). -/
def recordDone (t : TaskRecord) : Bool :=
  t.status.all (fun p => p.2 = -1)

/-- The inner batching loop of `_manage_tasks` over one record's status
items: files whose status is not `-1` are appended to the current batch (and
recorded in the batch status dict); the batch is emitted as a `Task` as soon
as it holds `batch_size` files, and a non-empty leftover batch is emitted at
the end. -/
def planRecord (batch_size : Int) (directory : String) :
    StrIntMap → List String → StrIntMap → List Task
  | [], batch, batch_status =>
    if batch.isEmpty then [] else [⟨directory, batch, batch_status⟩]
  | (file, progress) :: rest, batch, batch_status =>
    if progress ≠ -1 then
      let batch' := batch ++ [file]
      let bstat' := dictSet batch_status file progress
      if (batch'.length : Int) ≥ batch_size then
        ⟨directory, batch', bstat'⟩ :: planRecord batch_size directory rest [] []
      else planRecord batch_size directory rest batch' bstat'
    else planRecord batch_size directory rest batch batch_status

/-- `Orchestrator._manage_tasks`: walks the checkpoint's TaskRecords in
stored order; a record with a falsy directory raises `ValueError`, which is
caught and logged and the record skipped; a record whose statuses are all
`-1` is skipped; otherwise its batches are produced by the inner loop and
each is queued via `_queue_batch` as it is completed.  Returns the updated
state and the queued tasks in queue order.  `batch_size` is the
orchestrator's own `self.batch_size` attribute. -/
def manage_tasks (batch_size : Int) (s : CheckpointState) :
    CheckpointState × List Task :=
  s.tasks.foldl
    (fun acc t =>
      if t.directory = "" then acc
      else if recordDone t then acc
      else
        let batches := planRecord batch_size t.directory t.status [] []
        (batches.foldl queue_batch acc.1, acc.2 ++ batches))
    (s, [])

/-- A Python value as far as `handle_worker_update`'s type validation is
concerned: a string, an int, or anything else. -/
inductive PyVal
  | str (s : String)
  | int (n : Int)
  | other
deriving DecidableEq, Repr

/-- The `update_info` dict passed by a worker: each of the three required
keys may be present (with some value) or missing. -/
structure UpdateInfo where
  directory : Option PyVal
  file : Option PyVal
  status : Option PyVal
deriving DecidableEq, Repr

/-- Outcome of `handle_worker_update` as observed by the calling worker:
either the method returns normally (with the possibly-updated checkpoint
state) or an exception escapes it (with the state at that moment). -/
inductive HandleOutcome
  | handled (s : CheckpointState)
  | exceptionEscaped (s : CheckpointState)
deriving DecidableEq, Repr

/-- `Orchestrator.handle_worker_update`.  When all three required keys are
present, the locals `directory` and `file` are bound before any
`ValueError`; a type violation is then caught and logged
(update dropped), and a well-typed update is forwarded to
`_update_task_progress`, which never raises (its own handler logs unknown
files and leaves the state unchanged).  When a required key is missing, the
`ValueError` is raised before the locals are assigned, and the except
handler's log line `f"... for {file} in {directory}"` itself raises
`UnboundLocalError`, which propagates to the caller. -/
def handle_worker_update (s : CheckpointState) (u : UpdateInfo) :
    HandleOutcome :=
  match u.directory, u.file, u.status with
  | some d, some f, some st =>
    match d, f, st with
    | PyVal.str ds, PyVal.str fs, PyVal.int v =>
      HandleOutcome.handled (update_task_progress s ds fs v)
    | _, _, _ => HandleOutcome.handled s
  | _, _, _ => HandleOutcome.exceptionEscaped s

/-- Agreement between a flat progress dict and a list of TaskRecords: every
file of a status dict that also appears in the progress dict carries the
same status in both. -/
def agreesWith (prog : StrIntMap) (tasks : List TaskRecord) : Prop :=
  ∀ t ∈ tasks, ∀ p ∈ t.status,
    dictMem prog p.1 = true → dictGet? prog p.1 = some p.2

instance (prog : StrIntMap) (tasks : List TaskRecord) :
    Decidable (agreesWith prog tasks) := by
  unfold agreesWith
  exact inferInstance

/-- The agreement invariant between the flat `progress` dict and the
TaskRecords' status dicts. -/
def progressAgrees (s : CheckpointState) : Prop :=
  agreesWith s.progress s.tasks

instance (s : CheckpointState) : Decidable (progressAgrees s) := by
  unfold progressAgrees
  exact inferInstance

/-- The pairwise file-disjointness of TaskRecords: no file path occurs in
the status dicts of two different records. -/
def filesDisjoint (tasks : List TaskRecord) : Prop :=
  tasks.Pairwise (fun a b => ∀ p ∈ a.status, dictMem b.status p.1 = false)

instance (tasks : List TaskRecord) : Decidable (filesDisjoint tasks) := by
  unfold filesDisjoint
  exact inferInstance


/-- The JSON documents produced by `json.dump` / read by `json.load`. -/
inductive Json
  | str (s : String)
  | int (n : Int)
  | bool (b : Bool)
  | arr (xs : List Json)
  | obj (fields : List (String × Json))
deriving Repr

/-- Serialization of a status dict (`tasks[i]['status']` or `progress`). -/
def encodeStatus (m : StrIntMap) : Json :=
  Json.obj (m.map (fun p => (p.1, Json.int p.2)))

/-- Serialization of one TaskRecord. -/
def encodeTask (t : TaskRecord) : Json :=
  Json.obj [("directory", Json.str t.directory),
            ("status", encodeStatus t.status)]

/-- `json.dump(self.checkpoint_data, file)` in `_write_checkpoint`: the
checkpoint document written to disk (the Python tuple of four booleans
serializes as a JSON array). -/
def encodeCheckpoint (s : CheckpointState) : Json :=
  Json.obj
    [("task_name", Json.str s.task_name),
     ("input_type_flags",
       Json.arr [Json.bool s.input_type_flags.1,
                 Json.bool s.input_type_flags.2.1,
                 Json.bool s.input_type_flags.2.2.1,
                 Json.bool s.input_type_flags.2.2.2]),
     ("batch_size", Json.int s.batch_size),
     ("max_workers", Json.int s.max_workers),
     ("tasks", Json.arr (s.tasks.map encodeTask)),
     ("progress", encodeStatus s.progress)]

/-- Python dict key access on a parsed JSON object. -/
def jGet? (fields : List (String × Json)) (k : String) : Option Json :=
  (fields.find? (fun p => p.1 = k)).map Prod.snd

/-- Parse the entries of a JSON object back into a status dict. -/
def decodeEntries : List (String × Json) → Option StrIntMap
  | [] => some []
  | (k, Json.int n) :: rest => (decodeEntries rest).map (fun m => (k, n) :: m)
  | _ => none

def decodeStatus : Json → Option StrIntMap
  | Json.obj fields => decodeEntries fields
  | _ => none

def decodeTask : Json → Option TaskRecord
  | Json.obj fields =>
    match jGet? fields "directory", jGet? fields "status" with
    | some (Json.str d), some stj => (decodeStatus stj).map (fun m => ⟨d, m⟩)
    | _, _ => none
  | _ => none

def decodeTasks : List Json → Option (List TaskRecord)
  | [] => some []
  | j :: rest =>
    match decodeTask j, decodeTasks rest with
    | some t, some ts => some (t :: ts)
    | _, _ => none

/-- The load path of `_initialize_checkpoint` for an existing checkpoint
file: `json.load`, conversion of `input_type_flags` from list to tuple, and
`_validate_checkpoint_format` (all six required keys present; `task_name` a
string; the flags a 4-tuple; `batch_size` and `max_workers` positive ints;
`tasks` a list; `progress` a dict).  The result is additionally parsed into
the typed `CheckpointState`; `None` models the raised
`ValueError`/`RuntimeError`. -/
def loadCheckpoint (j : Json) : Option CheckpointState :=
  match j with
  | Json.obj fields =>
    match jGet? fields "task_name", jGet? fields "input_type_flags",
          jGet? fields "batch_size", jGet? fields "max_workers",
          jGet? fields "tasks", jGet? fields "progress" with
    | some (Json.str name), some (Json.arr flags), some (Json.int bsz),
      some (Json.int mw), some (Json.arr taskjs), some progj =>
      match flags with
      | [Json.bool f1, Json.bool f2, Json.bool f3, Json.bool f4] =>
        if 0 < bsz ∧ 0 < mw then
          match decodeTasks taskjs, decodeStatus progj with
          | some tasks, some prog =>
            some ⟨name, (f1, f2, f3, f4), bsz, mw, tasks, prog⟩
          | _, _ => none
        else none
      | _ => none
    | _, _, _, _, _, _ => none
  | _ => none

/-- `Orchestrator._attempt_fallback_checkpoint_write` under a write-success
oracle `ok`: tries the fallback paths in their configured order; the first
that succeeds receives the serialized payload and the method returns;
if every attempt fails, `logging.critical(...)` fires (second component
`true`) and the method returns without raising. -/
def attempt_fallback_checkpoint_write (ok : String → Bool) (payload : Json) :
    List String → List (String × Json) × Bool
  | [] => ([], true)
  | dir :: rest =>
    if ok dir then ([(dir, payload)], false)
    else attempt_fallback_checkpoint_write ok payload rest

/-- `Orchestrator._write_checkpoint`: writes the serialized checkpoint to
the primary checkpoint file; on failure it logs and hands over to the
fallback writer.  Result: which paths received the full serialized state,
and whether the all-attempts-failed critical log fired. -/
def write_checkpoint (ok : String → Bool) (s : CheckpointState)
    (primary : String) (fallbacks : List String) :
    List (String × Json) × Bool :=
  if ok primary then ([(primary, encodeCheckpoint s)], false)
  else attempt_fallback_checkpoint_write ok (encodeCheckpoint s) fallbacks

end Orchestrator

/-! ## Lemmas and claim theorems -/

theorem dictGet?_dictSet_self (m : StrIntMap) (k : String) (v : Int) :
    dictGet? (dictSet m k v) k = some v := by
  induction m with
  | nil => simp [dictSet, dictGet?, List.find?]
  | cons p ps ih =>
    by_cases hp : p.1 = k
    · simp [dictSet, dictGet?, List.find?, hp]
    · simp only [dictSet, if_neg hp, dictGet?, List.find?]
      have h1 : (decide (p.1 = k)) = false := by simp [hp]
      simp only [h1]
      exact ih

theorem dictGet?_dictSet_other (m : StrIntMap) (k k' : String) (v : Int)
    (h : k' ≠ k) : dictGet? (dictSet m k v) k' = dictGet? m k' := by
  induction m with
  | nil =>
    have h1 : (decide (k = k')) = false := decide_eq_false (Ne.symm h)
    simp [dictSet, dictGet?, List.find?, h1]
  | cons p ps ih =>
    by_cases hp : p.1 = k
    · have h2 : ¬ (p.1 = k') := by rw [hp]; exact Ne.symm h
      have h1 : (decide (k = k')) = false := decide_eq_false (Ne.symm h)
      simp [dictSet, dictGet?, List.find?, hp, h1, h2]
    · simp only [dictSet, if_neg hp, dictGet?, List.find?]
      by_cases hp' : p.1 = k'
      · simp [hp']
      · have h1 : (decide (p.1 = k')) = false := by simp [hp']
        simp only [h1]
        exact ih

namespace DatabaseManipulator

theorem safeExecuteLoop_all_fail (data : SqlData) (enableDumps sustainDumps : Bool)
    (failsAt : Nat → Bool) :
    ∀ remaining attempt, 1 ≤ remaining →
      (∀ i, i < attempt + remaining → failsAt i = true) →
      safeExecuteLoop failsAt (some data) enableDumps sustainDumps attempt remaining =
        if data.truthy && enableDumps then (data.dumpRows, !sustainDumps)
        else ([], true) := by
  intro remaining
  induction remaining with
  | zero => intro attempt h; omega
  | succ r ih =>
    intro attempt _ hf
    have hfa : failsAt attempt = true := hf attempt (by omega)
    rcases Nat.eq_zero_or_pos r with hr | hr
    · subst hr
      simp [safeExecuteLoop, hfa]
    · have : ¬ (r = 0) := by omega
      simp only [safeExecuteLoop, hfa, if_true, this, if_false]
      exact ih (attempt + 1) hr (fun i hi => hf i (by omega))

theorem flush_batch_tagged (tag : BatchRow → String) (st : WriterState)
    (h : bufferTagged tag st) :
    bufferTagged tag (flush_batch st).1 ∧
      ∀ e ∈ (flush_batch st).2, eventTagged tag e := by
  unfold flush_batch
  by_cases he : st.batch_data.isEmpty
  · simp only [he, if_true]
    exact ⟨h, by simp⟩
  · simp only [he, if_false]
    constructor
    · intro r hr; simp at hr
    · intro e hee
      simp at hee
      subst hee
      intro r hr
      exact h r hr

theorem add_to_batch_tagged (tag : BatchRow → String) (st : WriterState)
    (table : String) (row : BatchRow)
    (h : bufferTagged tag st) (hrow : tag row = table) :
    bufferTagged tag (add_to_batch st table row).1 ∧
      ∀ e ∈ (add_to_batch st table row).2, eventTagged tag e := by
  obtain ⟨b, tb, sz⟩ := st
  have hbt : ∀ r ∈ b, some (tag r) = tb := h
  by_cases hc : ((tb ≠ none ∧ tb ≠ some table) : Prop)
  · by_cases he : b = []
    · subst he
      by_cases hsz : sz ≤ 1
      · refine ⟨?_, ?_⟩
        · simp [add_to_batch, flush_batch, hc, hsz, bufferTagged]
        · intro e hee
          simp [add_to_batch, flush_batch, hc, hsz] at hee
          subst hee
          simp [eventTagged, hrow]
      · refine ⟨?_, ?_⟩
        · intro r hr
          simp [add_to_batch, flush_batch, hc, hsz] at hr ⊢
          subst hr
          exact hrow
        · simp [add_to_batch, flush_batch, hc, hsz]
    · have hne : ¬ ((b : List BatchRow).isEmpty = true) := by
        simp [he]
      by_cases hsz : sz ≤ 1
      · refine ⟨?_, ?_⟩
        · simp [add_to_batch, flush_batch, hc, hne, hsz, bufferTagged]
        · intro e hee
          simp [add_to_batch, flush_batch, hc, hne, hsz] at hee
          rcases hee with hee | hee <;> subst hee
          · intro r hr
            exact hbt r hr
          · simp [eventTagged, hrow]
      · refine ⟨?_, ?_⟩
        · intro r hr
          simp [add_to_batch, flush_batch, hc, hne, hsz] at hr ⊢
          subst hr
          exact hrow
        · intro e hee
          simp [add_to_batch, flush_batch, hc, hne, hsz] at hee
          subst hee
          intro r hr
          exact hbt r hr
  · have htb : tb = none ∨ tb = some table := by
      by_cases h1 : tb = none
      · exact Or.inl h1
      · right
        by_contra h2
        exact hc ⟨h1, h2⟩
    have hbtab : ∀ r ∈ b, tag r = table := by
      intro r hr
      rcases htb with h1 | h1
      · have := hbt r hr
        rw [h1] at this
        simp at this
      · have h2 := hbt r hr
        rw [h1] at h2
        exact Option.some.inj h2
    by_cases hsz : sz ≤ b.length + 1
    · refine ⟨?_, ?_⟩
      · simp [add_to_batch, flush_batch, hc, hsz, bufferTagged]
      · intro e hee
        simp [add_to_batch, flush_batch, hc, hsz] at hee
        subst hee
        intro r hr
        simp [List.mem_append] at hr
        rcases hr with hr | hr
        · exact congrArg some (hbtab r hr)
        · subst hr
          exact congrArg some hrow
    · refine ⟨?_, ?_⟩
      · intro r hr
        simp [add_to_batch, flush_batch, hc, hsz] at hr ⊢
        rcases hr with hr | hr
        · exact hbtab r hr
        · subst hr
          exact hrow
      · simp [add_to_batch, flush_batch, hc, hsz]

theorem runBatchCalls_tagged (tag : BatchRow → String) (st : WriterState)
    (calls : List (String × BatchRow))
    (h : bufferTagged tag st) (hcalls : ∀ c ∈ calls, tag c.2 = c.1) :
    bufferTagged tag (runBatchCalls st calls).1 ∧
      ∀ e ∈ (runBatchCalls st calls).2, eventTagged tag e := by
  induction calls generalizing st with
  | nil => exact ⟨h, by simp [runBatchCalls]⟩
  | cons c cs ih =>
    have hstep := add_to_batch_tagged tag st c.1 c.2 h
      (hcalls c (List.mem_cons_self c cs))
    have hrest := ih (add_to_batch st c.1 c.2).1 hstep.1
      (fun d hd => hcalls d (List.mem_cons_of_mem c hd))
    refine ⟨hrest.1, ?_⟩
    intro e hee
    simp only [runBatchCalls, List.mem_append] at hee
    rcases hee with hee | hee
    · exact hstep.2 e hee
    · exact hrest.2 e hee

theorem runBatchCalls_same_table (t : String) (k : Nat) :
    ∀ (rows b : List BatchRow) (tb : Option String),
      rows ≠ [] →
      (b = [] ∨ tb = some t) →
      b.length + rows.length = k →
      runBatchCalls ⟨b, tb, k⟩ (rows.map (fun r => (t, r))) =
        (⟨[], some t, k⟩, [⟨some t, b ++ rows⟩]) := by
  intro rows
  induction rows with
  | nil => intro b tb hne; exact absurd rfl hne
  | cons r rs ih =>
    intro b tb _ hinv hlen
    have hst1 : (if tb ≠ none ∧ tb ≠ some t then flush_batch ⟨b, tb, k⟩
        else (⟨b, tb, k⟩, [])) = (⟨b, tb, k⟩, ([] : List FlushEvent)) := by
      rcases hinv with hb | htb
      · subst hb
        by_cases hc : tb ≠ none ∧ tb ≠ some t
        · simp [hc, flush_batch]
        · simp [hc]
      · subst htb
        have hc : ¬ ((some t : Option String) ≠ none ∧ (some t : Option String) ≠ some t) := by
          simp
        simp [hc]
    rcases List.eq_nil_or_concat rs with hrs | _
    · subst hrs
      have hlenb : b.length + 1 = k := by simpa using hlen
      simp only [List.map_cons, List.map_nil, runBatchCalls, add_to_batch, hst1]
      have hge : (b ++ [r]).length ≥ k := by
        simp [List.length_append, hlenb]
      have hbne : ¬ ((b ++ [r]).isEmpty = true) := by
        simp
      simp [hge, flush_batch, hbne, runBatchCalls]
      omega
    · have hrsne : rs ≠ [] := by
        rename_i hex
        obtain ⟨l, a, rfl⟩ := hex
        simp
      have hlt : (b ++ [r]).length < k := by
        have : rs.length ≥ 1 := by
          cases rs with
          | nil => exact absurd rfl hrsne
          | cons _ _ => simp
        simp only [List.length_append, List.length_singleton]
        simp only [List.length_cons] at hlen
        omega
      simp only [List.map_cons, runBatchCalls, add_to_batch, hst1]
      have hnge : ¬ ((b ++ [r]).length ≥ k) := by omega
      simp only [hnge, if_false]
      have := ih (b ++ [r]) (some t) hrsne (Or.inr rfl)
        (by simp only [List.length_append, List.length_singleton]
            simp only [List.length_cons] at hlen; omega)
      rw [this]
      simp

/-- C2: when every one of the `retries` attempts of `safe_execute` fails,
with emergency dumps enabled and truthy row data supplied, the rows spilled
to overflow CSV files are exactly the submitted row(s) — one freshly named
artifact per spilled row, a single artifact for single-tuple data — and the
call raises `RuntimeError` in the default mode (`sustain_emergency_dumps =
false`) while returning normally when it is true. -/
theorem safe_execute_exhausted_retries_spill
    (d : SqlData) (retries : Nat) (sustainDumps : Bool) (failsAt : Nat → Bool)
    (hret : 1 ≤ retries) (hfail : ∀ i, i < retries → failsAt i = true)
    (hdata : d.truthy = true) :
    safeExecute failsAt (some d) retries true sustainDumps =
      (d.dumpRows, !sustainDumps) := by
  unfold safeExecute
  rw [safeExecuteLoop_all_fail d true sustainDumps failsAt retries 0 hret
    (by simpa using hfail)]
  simp [hdata]

theorem safe_execute_exhausted_retries_spill_witness :
    safeExecute (fun _ => true) (some (SqlData.single [7, 8])) 2 true false =
      ([[7, 8]], true) :=
  safe_execute_exhausted_retries_spill (SqlData.single [7, 8]) 2 false
    (fun _ => true) (by decide) (fun i _ => rfl) (by decide)

/-- C6: (a) starting from an empty buffer, adding exactly `batch_size` rows
for one table produces exactly one flush event, carrying those rows for that
table, and leaves the buffer empty; (b) an `add_to_batch` naming a table
different from the non-empty buffer's current `batch_table` first flushes
the prior table's buffered rows, and the only row in play afterwards (later
flush events of the same call plus the final buffer) is the new row. -/
theorem add_to_batch_flush_triggers (k : Nat) (hk : 1 ≤ k) :
    (∀ (t : String) (tb : Option String) (rows : List BatchRow),
        rows.length = k →
        runBatchCalls ⟨[], tb, k⟩ (rows.map (fun r => (t, r))) =
          (⟨[], some t, k⟩, [⟨some t, rows⟩]))
    ∧ (∀ (st : WriterState) (t t' : String) (row : BatchRow),
        st.batch_table = some t' → t' ≠ t → st.batch_data ≠ [] →
        ∃ evs, (add_to_batch st t row).2 = ⟨some t', st.batch_data⟩ :: evs ∧
          ((evs.map FlushEvent.rows).flatten ++
            (add_to_batch st t row).1.batch_data = [row])) := by
  constructor
  · intro t tb rows hlen
    have hne : rows ≠ [] := by
      intro hcon
      rw [hcon] at hlen
      simp at hlen
      omega
    have := runBatchCalls_same_table t k rows [] tb hne (Or.inl rfl)
      (by simpa using hlen)
    simpa using this
  · intro st t t' row htb hdiff hne
    obtain ⟨b, tb, sz⟩ := st
    simp only at htb hne
    subst htb
    have hc : ((some t' : Option String) ≠ none ∧
        (some t' : Option String) ≠ some t) := by
      constructor
      · simp
      · simp [hdiff]
    have hbne : ¬ ((b : List BatchRow).isEmpty = true) := by
      simp [hne]
    by_cases hsz : sz ≤ 1
    · refine ⟨[⟨some t, [row]⟩], ?_, ?_⟩
      · simp [add_to_batch, flush_batch, hc, hbne, hsz]
      · simp [add_to_batch, flush_batch, hc, hbne, hsz]
    · refine ⟨[], ?_, ?_⟩
      · simp [add_to_batch, flush_batch, hc, hbne, hsz]
      · simp [add_to_batch, flush_batch, hc, hbne, hsz]

theorem add_to_batch_flush_triggers_witness :
    (runBatchCalls ⟨[], none, 2⟩
        ([[("x", (1 : Int))], [("x", 2)]].map (fun r => ("a", r))) =
      (⟨[], some "a", 2⟩, [⟨some "a", [[("x", 1)], [("x", 2)]]⟩]))
    ∧ (∃ evs, (add_to_batch ⟨[[("c", (3 : Int))]], some "b", 2⟩ "a" [("x", 4)]).2 =
          ⟨some "b", [[("c", 3)]]⟩ :: evs ∧
        ((evs.map FlushEvent.rows).flatten ++
          (add_to_batch ⟨[[("c", 3)]], some "b", 2⟩ "a" [("x", 4)]).1.batch_data =
            [[("x", 4)]])) := by
  have h := add_to_batch_flush_triggers 2 (by decide)
  exact ⟨h.1 "a" none [[("x", 1)], [("x", 2)]] rfl,
    h.2 ⟨[[("c", 3)]], some "b", 2⟩ "a" "b" [("x", 4)] rfl (by decide) (by decide)⟩

/-- C10: for any sequence of `add_to_batch` calls on one writer started with
an empty buffer, where `tag` reads off the table each row was added for, at
every intermediate point (every prefix of the call sequence) all rows held
in the buffer are tagged with the current `batch_table`, and every flush
event emitted so far carries only rows of the one table it inserts into. -/
theorem batch_buffer_one_table
    (tag : BatchRow → String) (k : Nat) (calls : List (String × BatchRow))
    (hcalls : ∀ c ∈ calls, tag c.2 = c.1) :
    ∀ pre suf, calls = pre ++ suf →
      bufferTagged tag (runBatchCalls ⟨[], none, k⟩ pre).1 ∧
        ∀ e ∈ (runBatchCalls ⟨[], none, k⟩ pre).2, eventTagged tag e := by
  intro pre suf hsplit
  refine runBatchCalls_tagged tag ⟨[], none, k⟩ pre ?_ ?_
  · intro r hr
    simp at hr
  · intro c hcpre
    exact hcalls c (by rw [hsplit]; exact List.mem_append_left suf hcpre)

theorem batch_buffer_one_table_witness :
    bufferTagged (fun r => if r.any (fun p => p.1 = "x") then "a" else "b")
        (runBatchCalls ⟨[], none, 2⟩ [("a", [("x", (1 : Int))])]).1 ∧
      ∀ e ∈ (runBatchCalls ⟨[], none, 2⟩ [("a", [("x", (1 : Int))])]).2,
        eventTagged (fun r => if r.any (fun p => p.1 = "x") then "a" else "b") e :=
  batch_buffer_one_table (fun r => if r.any (fun p => p.1 = "x") then "a" else "b")
    2 [("a", [("x", (1 : Int))]), ("b", [("y", 2)])] (by decide)
    [("a", [("x", (1 : Int))])] [("b", [("y", 2)])] rfl

end DatabaseManipulator


theorem dictMem_dictSet_other (m : StrIntMap) (k k' : String) (v : Int)
    (h : k' ≠ k) : dictMem (dictSet m k v) k' = dictMem m k' := by
  induction m with
  | nil =>
    have h1 : (decide (k = k')) = false := decide_eq_false (Ne.symm h)
    simp [dictSet, dictMem, h1]
  | cons p ps ih =>
    by_cases hp : p.1 = k
    · have h2 : ¬ (p.1 = k') := by rw [hp]; exact Ne.symm h
      have h1 : (decide (k = k')) = false := decide_eq_false (Ne.symm h)
      simp [dictSet, dictMem, hp, h1, h2]
    · simp only [dictSet, if_neg hp, dictMem, List.any_cons]
      by_cases hp' : p.1 = k'
      · simp [hp']
      · have h1 : (decide (p.1 = k')) = false := by simp [hp']
        simp only [h1, Bool.false_or]
        exact ih

theorem dictMem_of_mem (m : StrIntMap) (p : String × Int) (h : p ∈ m) :
    dictMem m p.1 = true := by
  unfold dictMem
  rw [List.any_eq_true]
  exact ⟨p, h, by simp⟩

theorem mem_dictSet_of_ne (m : StrIntMap) (k : String) (v : Int)
    (p : String × Int) (h : p ∈ dictSet m k v) (hne : p.1 ≠ k) : p ∈ m := by
  induction m with
  | nil =>
    simp [dictSet] at h
    subst h
    exact absurd rfl hne
  | cons q qs ih =>
    by_cases hq : q.1 = k
    · simp only [dictSet, if_pos hq] at h
      rcases List.mem_cons.mp h with h1 | h1
      · rw [h1] at hne; exact absurd rfl hne
      · exact List.mem_cons_of_mem q h1
    · simp only [dictSet, if_neg hq] at h
      rcases List.mem_cons.mp h with h1 | h1
      · exact h1 ▸ List.mem_cons_self q qs
      · exact List.mem_cons_of_mem q (ih h1)

theorem mem_dictSet_self_of_nodup (m : StrIntMap) (k : String) (v : Int)
    (p : String × Int) (hnd : (m.map Prod.fst).Nodup)
    (h : p ∈ dictSet m k v) (hk : p.1 = k) : p = (k, v) := by
  induction m with
  | nil =>
    simp [dictSet] at h
    exact h
  | cons q qs ih =>
    simp only [List.map_cons, List.nodup_cons] at hnd
    by_cases hq : q.1 = k
    · simp only [dictSet, if_pos hq] at h
      rcases List.mem_cons.mp h with h1 | h1
      · exact h1
      · exfalso
        apply hnd.1
        rw [List.mem_map]
        exact ⟨p, h1, by rw [hk, hq]⟩
    · simp only [dictSet, if_neg hq] at h
      rcases List.mem_cons.mp h with h1 | h1
      · exfalso
        apply hq
        rw [← hk, h1]
      · exact ih hnd.2 h1

namespace Orchestrator

theorem map_snd_neg_one_eq_self :
    ∀ (m : StrIntMap), (∀ p ∈ m, p.2 = -1) →
      m.map (fun p => (p.1, (-1 : Int))) = m
  | [], _ => rfl
  | p :: ps, h => by
    have hp : p.2 = -1 := h p (List.mem_cons_self _ _)
    have hpp : (p.1, (-1 : Int)) = p := Prod.ext rfl hp.symm
    rw [List.map_cons, hpp,
      map_snd_neg_one_eq_self ps (fun q hq => h q (List.mem_cons_of_mem _ hq))]

/-- The completion sweep never changes the record: it only rewrites statuses
to `-1` when they are all already `-1`. -/
theorem completionSweep_eq (t : TaskRecord) : completionSweep t = t := by
  unfold completionSweep
  by_cases h : t.status.all (fun p => p.2 = -1)
  · simp only [h, if_true]
    have hall : ∀ p ∈ t.status, p.2 = -1 := by
      intro p hp
      have := List.all_eq_true.mp h p hp
      exact of_decide_eq_true this
    rw [map_snd_neg_one_eq_self t.status hall]
  · simp [h]

theorem updateFirstTask_congr (tasks : List TaskRecord) (d : String)
    (g g' : TaskRecord → TaskRecord) (h : ∀ t, g t = g' t) :
    updateFirstTask tasks d g = updateFirstTask tasks d g' := by
  induction tasks with
  | nil => rfl
  | cons t ts ih =>
    by_cases ht : t.directory = d
    · simp [updateFirstTask, ht, h]
    · simp [updateFirstTask, ht, ih]

/-- Decomposition of `updateFirstTask` at the record located by `find?`. -/
theorem updateFirstTask_eq_of_find? (tasks : List TaskRecord) (d : String)
    (g : TaskRecord → TaskRecord) (t0 : TaskRecord)
    (h : tasks.find? (fun t => t.directory = d) = some t0) :
    ∃ pre post, tasks = pre ++ t0 :: post ∧
      (∀ x ∈ pre, ¬ (x.directory = d)) ∧ t0.directory = d ∧
      updateFirstTask tasks d g = pre ++ g t0 :: post := by
  induction tasks with
  | nil => simp [List.find?] at h
  | cons t ts ih =>
    by_cases ht : t.directory = d
    · have hfind : (t :: ts).find? (fun t => t.directory = d) = some t := by
        simp [List.find?, ht]
      rw [hfind] at h
      obtain rfl := Option.some.inj h
      exact ⟨[], ts, by simp, by simp, ht, by simp [updateFirstTask, ht]⟩
    · have hfind : (t :: ts).find? (fun t => t.directory = d) =
          ts.find? (fun t => t.directory = d) := by
        simp [List.find?, ht]
      rw [hfind] at h
      obtain ⟨pre, post, heq, hpre, hd0, hupd⟩ := ih h
      refine ⟨t :: pre, post, by rw [heq]; rfl, ?_, hd0, ?_⟩
      · intro x hx
        rcases List.mem_cons.mp hx with hx | hx
        · rw [hx]; exact ht
        · exact hpre x hx
      · simp only [updateFirstTask, if_neg ht, hupd]
        rfl

theorem find?_append_of_none (pre : List TaskRecord) (rest : List TaskRecord)
    (d : String) (hpre : ∀ x ∈ pre, ¬ (x.directory = d)) :
    (pre ++ rest).find? (fun t => t.directory = d) =
      rest.find? (fun t => t.directory = d) := by
  induction pre with
  | nil => rfl
  | cons x xs ih =>
    have hx : ¬ (x.directory = d) := hpre x (List.mem_cons_self _ _)
    have h1 : (decide (x.directory = d)) = false := by simp [hx]
    simp only [List.cons_append, List.find?, h1]
    exact ih (fun y hy => hpre y (List.mem_cons_of_mem _ hy))


/-- C1 is false as stated: at this concrete checkpoint the single file of
directory `"d"` is terminal (status `-1`), yet applying a progress update
with status `5` is not a no-op — the stored status becomes `5` in the
TaskRecord status dict and in the flat `progress` dict. -/
theorem update_after_terminal_not_noop :
    ¬ ((((update_task_progress
            ⟨"t", (false, false, true, false), 3, 3,
             [⟨"d", [("f", -1)]⟩], [("f", -1)]⟩
            "d" "f" 5).tasks.find? (fun x => x.directory = "d")).map
          (fun t => dictGet? t.status "f") = some (some (-1)) ∧
        dictGet? (update_task_progress
            ⟨"t", (false, false, true, false), 3, 3,
             [⟨"d", [("f", -1)]⟩], [("f", -1)]⟩
            "d" "f" 5).progress "f" = some (-1))) := by
  decide

/-- C1 (amended): `_update_task_progress` has no terminal guard.  An update
for a file whose status in its owning record is `-1` is applied like any
other update: the submitted value overwrites the status in both the
record's status dict and the flat `progress` dict, so the update is a no-op
only when the submitted value is itself `-1`. -/
theorem update_task_progress_overwrites_terminal
    (s : CheckpointState) (d file : String) (v : Int) (t : TaskRecord)
    (hfind : s.tasks.find? (fun x => x.directory = d) = some t)
    (hmem : dictMem t.status file = true)
    (hterm : dictGet? t.status file = some (-1)) :
    dictGet? (update_task_progress s d file v).progress file = some v ∧
    ((update_task_progress s d file v).tasks.find?
        (fun x => x.directory = d)).map (fun t' => dictGet? t'.status file) =
      some (some v) := by
  have hred : update_task_progress s d file v =
      { s with
        tasks := updateFirstTask s.tasks d (fun t0 =>
          completionSweep { t0 with status := dictSet t0.status file v }),
        progress := dictSet s.progress file v } := by
    unfold update_task_progress
    rw [hfind]
    simp only [hmem, if_true]
  rw [hred]
  refine ⟨dictGet?_dictSet_self _ _ _, ?_⟩
  obtain ⟨pre, post, heq, hpre, hd, hupd⟩ :=
    updateFirstTask_eq_of_find? s.tasks d
      (fun t0 => completionSweep { t0 with status := dictSet t0.status file v })
      t hfind
  rw [hupd, find?_append_of_none pre _ d hpre,
    completionSweep_eq { t with status := dictSet t.status file v }]
  have hfd : ((({ t with status := dictSet t.status file v } : TaskRecord) ::
      post).find? (fun x => x.directory = d)) =
      some { t with status := dictSet t.status file v } := by
    simp [List.find?, hd]
  rw [hfd]
  simp [dictGet?_dictSet_self]

theorem update_task_progress_overwrites_terminal_witness :
    dictGet? ((update_task_progress
        ⟨"t", (false, false, true, false), 3, 3,
         [⟨"d", [("f", -1)]⟩], [("f", -1)]⟩
        "d" "f" 5).progress) "f" = some 5 ∧
    ((update_task_progress
        ⟨"t", (false, false, true, false), 3, 3,
         [⟨"d", [("f", -1)]⟩], [("f", -1)]⟩
        "d" "f" 5).tasks.find? (fun x => x.directory = "d")).map
      (fun t' => dictGet? t'.status "f") = some (some 5) :=
  update_task_progress_overwrites_terminal
    ⟨"t", (false, false, true, false), 3, 3,
     [⟨"d", [("f", -1)]⟩], [("f", -1)]⟩
    "d" "f" 5 ⟨"d", [("f", -1)]⟩ (by decide) (by decide) (by decide)

/-- C4: the claim fails on the code at a malformed update that is missing
the required `directory` key: the `ValueError` is raised before the locals
`directory`/`file` are bound, so the except handler's log f-string raises
`UnboundLocalError`, and that exception escapes `handle_worker_update` to
the calling worker (the checkpoint state itself is unchanged). -/
theorem handle_worker_update_missing_key_escapes :
    handle_worker_update
      ⟨"t", (false, false, true, false), 3, 3, [⟨"d", [("f", 0)]⟩], [("f", 0)]⟩
      ⟨none, some (PyVal.str "f"), some (PyVal.int 5)⟩ =
    HandleOutcome.exceptionEscaped
      ⟨"t", (false, false, true, false), 3, 3,
       [⟨"d", [("f", 0)]⟩], [("f", 0)]⟩ := by
  decide


theorem exists_of_dictMem (m : StrIntMap) (k : String)
    (h : dictMem m k = true) : ∃ p ∈ m, p.1 = k := by
  unfold dictMem at h
  rw [List.any_eq_true] at h
  obtain ⟨p, hp, hpk⟩ := h
  exact ⟨p, hp, of_decide_eq_true hpk⟩

theorem agreesWith_update (prog : StrIntMap) (tasks : List TaskRecord)
    (d file : String) (v : Int)
    (hdisj : filesDisjoint tasks)
    (hnd : ∀ t ∈ tasks, (t.status.map Prod.fst).Nodup)
    (hag : agreesWith prog tasks)
    (t0 : TaskRecord)
    (hfind : tasks.find? (fun t => t.directory = d) = some t0)
    (hmem : dictMem t0.status file = true) :
    agreesWith (dictSet prog file v)
      (updateFirstTask tasks d (fun t =>
        completionSweep { t with status := dictSet t.status file v })) := by
  obtain ⟨pre, post, heq, hpre, hd0, hupd⟩ :=
    updateFirstTask_eq_of_find? tasks d
      (fun t => completionSweep { t with status := dictSet t.status file v })
      t0 hfind
  rw [hupd, completionSweep_eq { t0 with status := dictSet t0.status file v }]
  subst heq
  unfold filesDisjoint at hdisj
  rw [List.pairwise_append] at hdisj
  obtain ⟨hpair_pre, hpair_rest, hcross⟩ := hdisj
  rw [List.pairwise_cons] at hpair_rest
  obtain ⟨ht0_post, _⟩ := hpair_rest
  intro t' ht' p hp hmem'
  have hmain : p.1 = file ∨ p.1 ≠ file := em _
  rcases List.mem_append.mp ht' with ht'pre | ht'rest
  · -- a record before the updated one
    rcases hmain with hkey | hkey
    · exfalso
      have h2 := hcross t' ht'pre t0 (List.mem_cons_self _ _) p hp
      rw [hkey] at h2
      rw [h2] at hmem
      exact Bool.false_ne_true hmem
    · rw [dictGet?_dictSet_other prog file p.1 v hkey]
      rw [dictMem_dictSet_other prog file p.1 v hkey] at hmem'
      exact hag t' (List.mem_append_left _ ht'pre) p hp hmem'
  · rcases List.mem_cons.mp ht'rest with ht'eq | ht'post
    · -- the updated record itself
      subst ht'eq
      simp only at hp
      rcases hmain with hkey | hkey
      · have hp' := mem_dictSet_self_of_nodup t0.status file v p
          (hnd t0 (List.mem_append_right _ (List.mem_cons_self _ _))) hp hkey
        rw [hkey, dictGet?_dictSet_self, hp']
      · have hp' := mem_dictSet_of_ne t0.status file v p hp hkey
        rw [dictGet?_dictSet_other prog file p.1 v hkey]
        rw [dictMem_dictSet_other prog file p.1 v hkey] at hmem'
        exact hag t0 (List.mem_append_right _ (List.mem_cons_self _ _)) p hp' hmem'
    · -- a record after the updated one
      rcases hmain with hkey | hkey
      · exfalso
        obtain ⟨p0, hp0, hp0k⟩ := exists_of_dictMem t0.status file hmem
        have h2 := ht0_post t' ht'post p0 hp0
        rw [hp0k] at h2
        have h1 : dictMem t'.status file = true := by
          rw [← hkey]
          exact dictMem_of_mem _ _ hp
        rw [h2] at h1
        exact Bool.false_ne_true h1
      · rw [dictGet?_dictSet_other prog file p.1 v hkey]
        rw [dictMem_dictSet_other prog file p.1 v hkey] at hmem'
        exact hag t' (List.mem_append_right _ (List.mem_cons_of_mem _ ht'post))
          p hp hmem'

theorem agreesWith_queue_fold (tasks : List TaskRecord) :
    ∀ (files : List String) (prog : StrIntMap),
      (∀ f ∈ files, ∀ t ∈ tasks, ∀ p ∈ t.status, p.1 = f → p.2 = 0) →
      agreesWith prog tasks →
      agreesWith (files.foldl (fun p f => dictSet p f 0) prog) tasks := by
  intro files
  induction files with
  | nil => intro prog _ hag; exact hag
  | cons f fs ih =>
    intro prog hz hag
    rw [List.foldl_cons]
    refine ih (dictSet prog f 0) (fun g hg => hz g (List.mem_cons_of_mem _ hg)) ?_
    intro t' ht' p hp hmem'
    by_cases hkey : p.1 = f
    · have hp0 : p.2 = 0 := hz f (List.mem_cons_self _ _) t' ht' p hp hkey
      rw [hkey, dictGet?_dictSet_self, hp0]
    · rw [dictGet?_dictSet_other prog f p.1 0 hkey]
      rw [dictMem_dictSet_other prog f p.1 0 hkey] at hmem'
      exact hag t' ht' p hp hmem'

/-- C5 is false as stated: in this concrete checkpoint the maps agree (file
`"f"` is at `3` in both), yet `_queue_batch` on a batch containing `"f"`
rewrites the flat `progress` entry to `0` while the TaskRecord status stays
`3`, breaking the agreement. -/
theorem queue_batch_breaks_progress_sync :
    progressAgrees
      ⟨"t", (false, false, true, false), 3, 3,
       [⟨"d", [("f", 3)]⟩], [("f", 3)]⟩ ∧
    ¬ progressAgrees
      (queue_batch
        ⟨"t", (false, false, true, false), 3, 3,
         [⟨"d", [("f", 3)]⟩], [("f", 3)]⟩
        ⟨"d", ["f"], [("f", 3)]⟩) := by
  constructor
  · decide
  · decide

/-- C5 (amended): of the two checkpoint-mutating operations,
`_update_task_progress` preserves the agreement invariant between the flat
`progress` dict and the TaskRecord status dicts whenever file paths are
unique within and across TaskRecords; `_queue_batch`, however, writes `0`
into `progress` for every queued file without touching the TaskRecord
statuses, so it preserves the invariant only when every queued file's
recorded status is `0` (in particular it breaks it for a queued file whose
record status is a positive in-progress value). -/
theorem progress_sync_preservation :
    (∀ (s : CheckpointState) (d file : String) (v : Int),
      filesDisjoint s.tasks →
      (∀ t ∈ s.tasks, (t.status.map Prod.fst).Nodup) →
      progressAgrees s →
      progressAgrees (update_task_progress s d file v)) ∧
    (∀ (s : CheckpointState) (task : Task),
      (∀ f ∈ task.video_files, ∀ t ∈ s.tasks, ∀ p ∈ t.status,
        p.1 = f → p.2 = 0) →
      progressAgrees s →
      progressAgrees (queue_batch s task)) := by
  constructor
  · intro s d file v hdisj hnd hag
    unfold update_task_progress
    cases hfind : s.tasks.find? (fun t => t.directory = d) with
    | none => exact hag
    | some t0 =>
      by_cases hmem : dictMem t0.status file
      · simp only [hmem, if_true]
        exact agreesWith_update s.progress s.tasks d file v hdisj hnd hag
          t0 hfind hmem
      · simp only [hmem, if_false]
        exact hag
  · intro s task hz hag
    exact agreesWith_queue_fold s.tasks task.video_files s.progress hz hag

theorem progress_sync_preservation_witness :
    progressAgrees
      (update_task_progress
        ⟨"t", (false, false, true, false), 3, 3,
         [⟨"d", [("f", 0)]⟩], [("f", 0)]⟩
        "d" "f" 7) ∧
    progressAgrees
      (queue_batch
        ⟨"t", (false, false, true, false), 3, 3,
         [⟨"d", [("f", 0)]⟩], [("f", 0)]⟩
        ⟨"d", ["f"], [("f", 0)]⟩) :=
  ⟨progress_sync_preservation.1
      ⟨"t", (false, false, true, false), 3, 3, [⟨"d", [("f", 0)]⟩], [("f", 0)]⟩
      "d" "f" 7 (by decide) (by decide) (by decide),
   progress_sync_preservation.2
      ⟨"t", (false, false, true, false), 3, 3, [⟨"d", [("f", 0)]⟩], [("f", 0)]⟩
      ⟨"d", ["f"], [("f", 0)]⟩ (by decide) (by decide)⟩


theorem flatMapCongr {α β : Type} (l : List α) (f g : α → List β)
    (h : ∀ x ∈ l, f x = g x) : l.flatMap f = l.flatMap g := by
  induction l with
  | nil => rfl
  | cons x xs ih =>
    simp only [List.flatMap_cons]
    rw [h x (List.mem_cons_self _ _),
      ih (fun y hy => h y (List.mem_cons_of_mem _ hy))]

theorem planRecord_spec (bs : Int) (d : String) (hbs : 1 ≤ bs) :
    ∀ (l : StrIntMap) (batch : List String) (bstat : StrIntMap),
      (batch.length : Int) < bs →
      (((planRecord bs d l batch bstat).map Task.video_files).flatten =
        batch ++ (l.filter (fun p => p.2 ≠ -1)).map Prod.fst) ∧
      (∀ b ∈ planRecord bs d l batch bstat,
        b.directory = d ∧ b.video_files ≠ [] ∧
        (b.video_files.length : Int) ≤ bs ∧
        ∀ f ∈ b.video_files, f ∈ batch ∨ f ∈ l.map Prod.fst) := by
  intro l
  induction l with
  | nil =>
    intro batch bstat hlt
    by_cases hb : batch.isEmpty
    · rw [List.isEmpty_iff] at hb
      subst hb
      simp [planRecord]
    · have hbne : batch ≠ [] := fun hcon => hb (by rw [hcon]; rfl)
      have hplan : planRecord bs d [] batch bstat =
          [⟨d, batch, bstat⟩] := by
        simp only [planRecord]
        rw [if_neg hb]
      rw [hplan]
      constructor
      · simp
      · intro b hbmem
        rw [List.mem_singleton] at hbmem
        subst hbmem
        exact ⟨rfl, hbne, le_of_lt hlt, fun f hf => Or.inl hf⟩
  | cons q rest ih =>
    intro batch bstat hlt
    obtain ⟨f0, p0⟩ := q
    by_cases hp0 : p0 ≠ -1
    · by_cases hsz : ((batch ++ [f0]).length : Int) ≥ bs
      · have hz : (([] : List String).length : Int) < bs := by
          simpa using lt_of_lt_of_le Int.zero_lt_one hbs
        obtain ⟨ihA, ihB⟩ := ih [] [] hz
        have hplan : planRecord bs d ((f0, p0) :: rest) batch bstat =
            ⟨d, batch ++ [f0], dictSet bstat f0 p0⟩ ::
              planRecord bs d rest [] [] := by
          simp only [planRecord]
          rw [if_pos hp0, if_pos hsz]
        rw [hplan]
        constructor
        · simp only [List.map_cons, List.flatten_cons]
          rw [ihA]
          simp [List.filter_cons, hp0]
        · intro b hbmem
          rcases List.mem_cons.mp hbmem with hbmem | hbmem
          · subst hbmem
            refine ⟨rfl, by simp, ?_, ?_⟩
            · simp only [List.length_append, List.length_singleton]
              push_cast
              omega
            · intro f hf
              rcases List.mem_append.mp hf with hf | hf
              · exact Or.inl hf
              · right
                rw [List.mem_singleton] at hf
                subst hf
                simp
          · obtain ⟨hd, hne, hlen, hmem⟩ := ihB b hbmem
            refine ⟨hd, hne, hlen, ?_⟩
            intro f hf
            rcases hmem f hf with hf' | hf'
            · simp at hf'
            · right
              simp only [List.map_cons]
              exact List.mem_cons_of_mem _ hf'
      · have hlt' : ((batch ++ [f0]).length : Int) < bs := lt_of_not_ge hsz
        obtain ⟨ihA, ihB⟩ := ih (batch ++ [f0]) (dictSet bstat f0 p0) hlt'
        have hplan : planRecord bs d ((f0, p0) :: rest) batch bstat =
            planRecord bs d rest (batch ++ [f0]) (dictSet bstat f0 p0) := by
          simp only [planRecord]
          rw [if_pos hp0, if_neg hsz]
        rw [hplan]
        constructor
        · rw [ihA]
          simp [List.filter_cons, hp0]
        · intro b hbmem
          obtain ⟨hd, hne, hlen, hmem⟩ := ihB b hbmem
          refine ⟨hd, hne, hlen, ?_⟩
          intro f hf
          rcases hmem f hf with hf' | hf'
          · rcases List.mem_append.mp hf' with hf'' | hf''
            · exact Or.inl hf''
            · right
              rw [List.mem_singleton] at hf''
              subst hf''
              simp
          · right
            simp only [List.map_cons]
            exact List.mem_cons_of_mem _ hf'
    · have hp0' : p0 = -1 := not_not.mp hp0
      obtain ⟨ihA, ihB⟩ := ih batch bstat hlt
      have hplan : planRecord bs d ((f0, p0) :: rest) batch bstat =
          planRecord bs d rest batch bstat := by
        simp only [planRecord]
        rw [if_neg hp0]
      rw [hplan]
      constructor
      · rw [ihA]
        simp [List.filter_cons, hp0']
      · intro b hbmem
        obtain ⟨hd, hne, hlen, hmem⟩ := ihB b hbmem
        refine ⟨hd, hne, hlen, ?_⟩
        intro f hf
        rcases hmem f hf with hf' | hf'
        · exact Or.inl hf'
        · right
          simp only [List.map_cons]
          exact List.mem_cons_of_mem _ hf'

theorem manage_tasks_loop_snd (bs : Int) :
    ∀ (tasks : List TaskRecord) (p : CheckpointState × List Task),
      (tasks.foldl
        (fun acc t =>
          if t.directory = "" then acc
          else if recordDone t then acc
          else
            let batches := planRecord bs t.directory t.status [] []
            (batches.foldl queue_batch acc.1, acc.2 ++ batches)) p).2 =
      p.2 ++ tasks.flatMap (fun t =>
        if t.directory = "" then []
        else if recordDone t then []
        else planRecord bs t.directory t.status [] []) := by
  intro tasks
  induction tasks with
  | nil => intro p; simp
  | cons t ts ih =>
    intro p
    by_cases h1 : t.directory = ""
    · simp only [List.foldl_cons, h1, if_true, List.flatMap_cons]
      rw [ih p]
      simp [h1]
    · by_cases h2 : recordDone t
      · simp only [List.foldl_cons, h1, if_false, h2, if_true, List.flatMap_cons]
        rw [ih p]
        simp [h1, h2]
      · simp only [List.foldl_cons, h1, if_false, h2, List.flatMap_cons]
        rw [ih]
        simp [h1, h2, List.append_assoc]

/-- C3: the planner walks the TaskRecords in stored order; a record whose
statuses are all `-1` contributes no batches; every other record's
non-complete entries are collected in their original order and chunked into
batches of at most `batch_size` files, and each batch carries its one
record's directory and only that record's files (batches never span two
records). -/
theorem manage_tasks_plan (bs : Int) (s : CheckpointState)
    (hbs : 1 ≤ bs) (hdir : ∀ t ∈ s.tasks, ¬ (t.directory = "")) :
    ((manage_tasks bs s).2 =
      s.tasks.flatMap (fun t =>
        if recordDone t then []
        else planRecord bs t.directory t.status [] [])) ∧
    (∀ t ∈ s.tasks, ¬ (recordDone t = true) →
      (((planRecord bs t.directory t.status [] []).map
          Task.video_files).flatten =
        (t.status.filter (fun p => p.2 ≠ -1)).map Prod.fst) ∧
      ∀ b ∈ planRecord bs t.directory t.status [] [],
        b.directory = t.directory ∧ b.video_files ≠ [] ∧
        (b.video_files.length : Int) ≤ bs ∧
        ∀ f ∈ b.video_files, f ∈ t.status.map Prod.fst) := by
  constructor
  · unfold manage_tasks
    rw [manage_tasks_loop_snd bs s.tasks (s, [])]
    simp only [List.nil_append]
    refine flatMapCongr s.tasks _ _ ?_
    intro t ht
    simp [hdir t ht]
  · intro t ht hdone
    have h0 : (([] : List String).length : Int) < bs := by
      simpa using lt_of_lt_of_le Int.zero_lt_one hbs
    obtain ⟨hA, hB⟩ := planRecord_spec bs t.directory hbs t.status [] [] h0
    refine ⟨hA, ?_⟩
    intro b hb
    obtain ⟨hd, hne, hlen, hmem⟩ := hB b hb
    refine ⟨hd, hne, hlen, ?_⟩
    intro f hf
    rcases hmem f hf with hf' | hf'
    · simp at hf'
    · exact hf'

theorem manage_tasks_plan_witness :
    ((manage_tasks 2
        ⟨"t", (false, false, true, false), 2, 2,
         [⟨"A", [("a1", 0), ("a2", -1), ("a3", 4), ("a4", 0)]⟩,
          ⟨"B", [("b1", -1), ("b2", -1)]⟩,
          ⟨"C", [("c1", 0)]⟩], []⟩).2 =
      [⟨"A", [("a1", 0), ("a2", -1), ("a3", 4), ("a4", 0)]⟩,
       ⟨"B", [("b1", -1), ("b2", -1)]⟩,
       (⟨"C", [("c1", 0)]⟩ : TaskRecord)].flatMap (fun t =>
        if recordDone t then []
        else planRecord 2 t.directory t.status [] [])) ∧
    (∀ t ∈ [⟨"A", [("a1", 0), ("a2", -1), ("a3", 4), ("a4", 0)]⟩,
            ⟨"B", [("b1", -1), ("b2", -1)]⟩,
            (⟨"C", [("c1", 0)]⟩ : TaskRecord)], ¬ (recordDone t = true) →
      (((planRecord 2 t.directory t.status [] []).map
          Task.video_files).flatten =
        (t.status.filter (fun p => p.2 ≠ -1)).map Prod.fst) ∧
      ∀ b ∈ planRecord 2 t.directory t.status [] [],
        b.directory = t.directory ∧ b.video_files ≠ [] ∧
        (b.video_files.length : Int) ≤ 2 ∧
        ∀ f ∈ b.video_files, f ∈ t.status.map Prod.fst) :=
  manage_tasks_plan 2
    ⟨"t", (false, false, true, false), 2, 2,
     [⟨"A", [("a1", 0), ("a2", -1), ("a3", 4), ("a4", 0)]⟩,
      ⟨"B", [("b1", -1), ("b2", -1)]⟩,
      ⟨"C", [("c1", 0)]⟩], []⟩
    (by decide) (by decide)


theorem decodeEntries_encode (m : StrIntMap) :
    decodeEntries (m.map (fun p => (p.1, Json.int p.2))) = some m := by
  induction m with
  | nil => rfl
  | cons p ps ih =>
    simp [decodeEntries, ih]

theorem decodeStatus_encodeStatus (m : StrIntMap) :
    decodeStatus (encodeStatus m) = some m := by
  simp [encodeStatus, decodeStatus, decodeEntries_encode]

theorem decodeTask_encodeTask (t : TaskRecord) :
    decodeTask (encodeTask t) = some t := by
  obtain ⟨d, m⟩ := t
  simp [encodeTask, decodeTask, jGet?, List.find?, decodeStatus_encodeStatus]

theorem decodeTasks_encode (ts : List TaskRecord) :
    decodeTasks (ts.map encodeTask) = some ts := by
  induction ts with
  | nil => rfl
  | cons t ts ih =>
    simp [decodeTasks, decodeTask_encodeTask, ih]

/-- C7: persisting a valid CheckpointState (positive `batch_size` and
`max_workers`, as `_validate_checkpoint_format` requires) and loading it
back yields the same state, including the `input_type_flags` 4-tuple, which
round-trips through its JSON-array form. -/
theorem checkpoint_round_trip (s : CheckpointState)
    (hb : 0 < s.batch_size) (hm : 0 < s.max_workers) :
    loadCheckpoint (encodeCheckpoint s) = some s := by
  obtain ⟨name, ⟨fa, fb, fc, fd⟩, bsz, mw, tasks, prog⟩ := s
  simp only at hb hm
  simp [encodeCheckpoint, loadCheckpoint, jGet?, List.find?,
    decodeTasks_encode, decodeStatus_encodeStatus, hb, hm]

theorem checkpoint_round_trip_witness :
    loadCheckpoint (encodeCheckpoint
      ⟨"t", (false, false, true, false), 2, 3,
       [⟨"d", [("f", -1), ("g", 4)]⟩], [("f", -1), ("g", 0)]⟩) =
    some ⟨"t", (false, false, true, false), 2, 3,
       [⟨"d", [("f", -1), ("g", 4)]⟩], [("f", -1), ("g", 0)]⟩ :=
  checkpoint_round_trip
    ⟨"t", (false, false, true, false), 2, 3,
     [⟨"d", [("f", -1), ("g", 4)]⟩], [("f", -1), ("g", 0)]⟩
    (by decide) (by decide)

theorem attempt_fallback_spec (ok : String → Bool) (payload : Json) :
    ∀ dirs : List String,
      (dirs.find? ok = none →
        attempt_fallback_checkpoint_write ok payload dirs = ([], true)) ∧
      (∀ dir, dirs.find? ok = some dir →
        attempt_fallback_checkpoint_write ok payload dirs =
          ([(dir, payload)], false)) := by
  intro dirs
  induction dirs with
  | nil =>
    refine ⟨fun _ => rfl, fun dir h => ?_⟩
    simp [List.find?] at h
  | cons x xs ih =>
    by_cases hx : ok x
    · have hfind : (x :: xs).find? ok = some x := by
        simp [List.find?, hx]
      refine ⟨fun h => ?_, fun dir h => ?_⟩
      · rw [hfind] at h
        exact absurd h (by simp)
      · rw [hfind] at h
        obtain rfl := Option.some.inj h
        simp [attempt_fallback_checkpoint_write, hx]
    · have hx' : ok x = false := Bool.eq_false_iff.mpr hx
      have hfind : (x :: xs).find? ok = xs.find? ok := by
        simp [List.find?, hx']
      refine ⟨fun h => ?_, fun dir h => ?_⟩
      · rw [hfind] at h
        simp only [attempt_fallback_checkpoint_write, hx', if_neg]
        simp only [Bool.false_eq_true, if_false]
        exact ih.1 h
      · rw [hfind] at h
        simp only [attempt_fallback_checkpoint_write]
        rw [if_neg (by simp [hx'])]
        exact ih.2 dir h

/-- C8: when writing the checkpoint to the primary path fails, the fallback
paths are tried in their configured order and exactly the first succeeding
one receives the full serialized state (with no critical log); when the
primary and every fallback fail, the critical-severity log fires and the
method still returns (it is a total function — nothing is raised), leaving
the run to its in-memory state. -/
theorem write_checkpoint_fallback (ok : String → Bool) (s : CheckpointState)
    (primary : String) (fallbacks : List String)
    (hfail : ok primary = false) :
    (∀ dir, fallbacks.find? ok = some dir →
      write_checkpoint ok s primary fallbacks =
        ([(dir, encodeCheckpoint s)], false)) ∧
    (fallbacks.find? ok = none →
      write_checkpoint ok s primary fallbacks = ([], true)) := by
  have hred : write_checkpoint ok s primary fallbacks =
      attempt_fallback_checkpoint_write ok (encodeCheckpoint s) fallbacks := by
    unfold write_checkpoint
    rw [if_neg (by simp [hfail])]
  refine ⟨fun dir h => ?_, fun h => ?_⟩
  · rw [hred]
    exact (attempt_fallback_spec ok (encodeCheckpoint s) fallbacks).2 dir h
  · rw [hred]
    exact (attempt_fallback_spec ok (encodeCheckpoint s) fallbacks).1 h

theorem write_checkpoint_fallback_witness :
    write_checkpoint (fun p => p == "fb2")
      ⟨"t", (false, false, true, false), 3, 3, [⟨"d", [("f", 0)]⟩], [("f", 0)]⟩
      "prim" ["fb1", "fb2"] =
    ([("fb2", encodeCheckpoint
        ⟨"t", (false, false, true, false), 3, 3,
         [⟨"d", [("f", 0)]⟩], [("f", 0)]⟩)], false) :=
  (write_checkpoint_fallback (fun p => p == "fb2")
    ⟨"t", (false, false, true, false), 3, 3, [⟨"d", [("f", 0)]⟩], [("f", 0)]⟩
    "prim" ["fb1", "fb2"] rfl).1 "fb2" rfl

end Orchestrator

end DetectFlow
